import Mathlib

/-!
Verification of the uwaterloo-tools repository: the exam-archive
scraper pipeline in src/examSaver/src/index.ts and the commit-log
viewer in src/github-org-commits/viewer.

The scraper source is embedded shallowly: an HTML page is modelled as
the list of its listing blocks, each block carrying the text of its
title node and the optional href attribute of its content link, which
is exactly the data the cheerio selectors in parseExams extract.
-/

/-- Model of the JavaScript String.prototype.trim method: drop
whitespace characters from both ends of the string. Written as
structural recursion over the character list so that concrete calls
evaluate inside the kernel, which the built-in String.trim does not. -/
def jsTrim (s : String) : String :=
  ⟨((s.data.dropWhile Char.isWhitespace).reverse.dropWhile
      Char.isWhitespace).reverse⟩

namespace ExamSaver

/-- A listing block: one article.list-article element of a fetched
page. The titleText field is the raw text of the h2.entry-title node
inside it, before trimming; the link field is the href attribute of
the div.entry-content a node, absent when the element or the
attribute does not exist. -/
structure Block where
  titleText : String
  link : Option String
deriving DecidableEq, Repr

/-- One extracted record, as pushed by parseExams at line 19 of
src/examSaver/src/index.ts. -/
structure Exam where
  title : String
  url : String
  category : String
deriving DecidableEq, Repr

/-- The base of the archive site, line 31 of src/examSaver/src/index.ts. -/
def baseUrl : String := "https://exams.engsoc.uwaterloo.ca/"

/-- The body of the each-callback of parseExams, lines 16 to 24 of
src/examSaver/src/index.ts: trim the title text, and when both the
trimmed title and the link attribute are present and non-empty, emit
a record whose url is the base concatenated with the raw link. -/
def parseBlock (category : String) (b : Block) : Option Exam :=
  let title := jsTrim b.titleText
  match b.link with
  | some link =>
      if title ≠ "" ∧ link ≠ "" then
        some { title := title, url := baseUrl ++ link, category := category }
      else
        none
  | none => none

/-- parseExams, lines 11 to 28 of src/examSaver/src/index.ts: iterate
over the article.list-article blocks of the page and push one record
per block that passes the truthiness test. -/
def parseExams (html : List Block) (category : String) : List Exam :=
  html.filterMap (parseBlock category)

/-- A block both of whose extracted fields are non-empty, which is the
JavaScript truthiness condition at line 18 of the source. -/
def goodBlock (b : Block) : Bool :=
  (jsTrim b.titleText ≠ "" : Bool) &&
    (match b.link with
     | some link => (link ≠ "" : Bool)
     | none => false)

/-- The category-to-tag switch of fetchPage, lines 34 to 43 of
src/examSaver/src/index.ts. -/
def tagOf (category : String) : String :=
  match category with
  | "Mathematics" => "mathematics"
  | "Math" => "math"
  | _ => "electrical-and-computer"

/-- The URL built by fetchPage, lines 45 to 47 of
src/examSaver/src/index.ts: page 0 omits the paged query parameter,
any other page appends it with the literal page number. -/
def fetchUrl (page : Nat) (category : String) : String :=
  if page = 0 then
    baseUrl ++ "?tag=" ++ tagOf category
  else
    baseUrl ++ "?tag=" ++ tagOf category ++ "&paged=" ++ toString page

theorem parseBlock_isSome (category : String) (b : Block) :
    (parseBlock category b).isSome = goodBlock b := by
  unfold parseBlock goodBlock
  cases b.link with
  | none => simp
  | some link =>
      by_cases ht : jsTrim b.titleText = "" <;> by_cases hl : link = "" <;>
        simp [ht, hl]

end ExamSaver

namespace ExamSaver

/-- C1: for every page index and category, the URL built by fetchPage
equals the paged-parameter-free URL exactly when the page index is 0,
and for every index at least 1 it is the base URL with the tag of the
category and the paged parameter carrying the literal index. -/
theorem fetchUrl_paged_iff (page : Nat) (category : String) :
    (fetchUrl page category = baseUrl ++ "?tag=" ++ tagOf category ↔ page = 0) ∧
    (1 ≤ page →
      fetchUrl page category =
        baseUrl ++ "?tag=" ++ tagOf category ++ "&paged=" ++ toString page) := by
  constructor
  · constructor
    · intro h
      by_contra hp
      rw [fetchUrl, if_neg hp] at h
      have hlen := congrArg String.length h
      simp only [String.length_append] at hlen
      have h7 : ("&paged=" : String).length = 7 := rfl
      rw [h7] at hlen
      generalize (toString page).length = k at hlen
      omega
    · intro h
      rw [fetchUrl, if_pos h]
  · intro h
    have hp : page ≠ 0 := by omega
    rw [fetchUrl, if_neg hp]

theorem fetchUrl_paged_iff_witness :
    (fetchUrl 0 "ECE" = baseUrl ++ "?tag=" ++ tagOf "ECE") ∧
    fetchUrl 3 "ECE" =
      baseUrl ++ "?tag=" ++ tagOf "ECE" ++ "&paged=" ++ toString 3 :=
  ⟨(fetchUrl_paged_iff 0 "ECE").1.mpr rfl,
   (fetchUrl_paged_iff 3 "ECE").2 (by decide)⟩

/-- C2: parseExams returns exactly one record per listing block whose
trimmed title text and link attribute are both present and non-empty,
and skips every other block, so for any page the output length equals
the number of blocks with both fields. -/
theorem parseExams_length (html : List Block) (category : String) :
    (parseExams html category).length = html.countP goodBlock := by
  unfold parseExams
  rw [List.length_filterMap_eq_countP]
  apply List.countP_congr
  intro b _
  simp [parseBlock_isSome category b]

/-- C10: every category other than the two mathematics labels is mapped
to the electrical-and-computer tag; no category is rejected. -/
theorem tagOf_default (category : String)
    (h1 : category ≠ "Mathematics") (h2 : category ≠ "Math") :
    tagOf category = "electrical-and-computer" := by
  unfold tagOf
  split
  · exact absurd rfl h1
  · exact absurd rfl h2
  · rfl

theorem tagOf_default_witness :
    tagOf "Physics" = "electrical-and-computer" :=
  tagOf_default "Physics" (by decide) (by decide)

/-- C4: every record emitted by parseExams has a url equal to the fixed
base path concatenated with the raw link attribute of the block it came
from, with no normalization of the link. -/
theorem parseExams_url_raw (html : List Block) (category : String)
    (r : Exam) (hr : r ∈ parseExams html category) :
    ∃ b ∈ html, ∃ link, b.link = some link ∧ r.url = baseUrl ++ link := by
  unfold parseExams at hr
  rcases List.mem_filterMap.mp hr with ⟨b, hb, hparse⟩
  refine ⟨b, hb, ?_⟩
  unfold parseBlock at hparse
  cases hl : b.link with
  | none => rw [hl] at hparse; exact absurd hparse (by simp)
  | some link =>
      rw [hl] at hparse
      dsimp only at hparse
      by_cases hcond : jsTrim b.titleText ≠ "" ∧ link ≠ ""
      · rw [if_pos hcond] at hparse
        have hre := Option.some.inj hparse
        exact ⟨link, rfl, by rw [← hre]⟩
      · rw [if_neg hcond] at hparse
        exact absurd hparse (by simp)

theorem parseExams_url_raw_witness :
    ∃ b ∈ [Block.mk "Midterm" (some "papers/m1.pdf")], ∃ link,
      b.link = some link ∧
      (Exam.mk "Midterm" (baseUrl ++ "papers/m1.pdf") "ECE").url =
        baseUrl ++ link :=
  parseExams_url_raw [Block.mk "Midterm" (some "papers/m1.pdf")] "ECE"
    (Exam.mk "Midterm" (baseUrl ++ "papers/m1.pdf") "ECE") (by decide)

/-- C7: on a page with two listing blocks, the first titled Final 2020
with link /papers/f20.pdf and the second with an empty title, parseExams
returns exactly one record, keeping the given title, concatenating the
base path with the raw link, and carrying the category argument. -/
theorem parseExams_scenario (category : String) :
    parseExams
      [Block.mk "Final 2020" (some "/papers/f20.pdf"),
       Block.mk "" (some "/papers/other.pdf")] category =
    [Exam.mk "Final 2020" (baseUrl ++ "/papers/f20.pdf") category] := by
  rfl

/-- One observable step of the orchestrator processPages: a page fetch
(immediately followed in the source by the parse of its markup) or the
fixed one-second delay call. -/
inductive Event where
  | fetch (page : Nat) (category : String)
  | pause
deriving DecidableEq, Repr

/-- The page schedule of processPages, lines 64, 74 and 84 of
src/examSaver/src/index.ts: three sequential for-loops with inclusive
upper bounds 80, 20 and 5, over the categories ECE, Mathematics and
Math in that order. -/
def pagePlan : List (Nat × String) :=
  (List.range 81).map (fun p => (p, "ECE")) ++
    (List.range 21).map (fun p => (p, "Mathematics")) ++
    (List.range 6).map (fun p => (p, "Math"))

/-- The event trace of one run of processPages: for every scheduled
page, one fetch step and then one delay, strictly in schedule order
since every await completes before the next statement runs. -/
def processTrace : List Event :=
  pagePlan.flatMap (fun pc => [Event.fetch pc.1 pc.2, Event.pause])

def isFetch : Event → Bool
  | .fetch _ _ => true
  | .pause => false

/-- The sequence of fetched pages of the trace, in order. -/
def fetchSeq : List (Nat × String) :=
  processTrace.filterMap fun e =>
    match e with
    | .fetch p c => some (p, c)
    | .pause => none

/-- Checks that every fetch event of the trace is immediately followed
by a pause event. -/
def fetchFollowedByPause : Bool :=
  (List.range processTrace.length).all fun i =>
    match processTrace[i]? with
    | some (Event.fetch _ _) => processTrace[i + 1]? == some Event.pause
    | _ => true

set_option maxRecDepth 20000 in
/-- C3: a run of processPages over the three configured categories
issues exactly 108 page fetches, in order page 0 through 80 for ECE,
then 0 through 20 for Mathematics, then 0 through 5 for Math, and
every fetch-and-parse step is immediately followed by exactly one
pause. -/
theorem processPages_schedule :
    processTrace.countP (fun e => isFetch e) = 108 ∧
    fetchSeq =
      (List.range 81).map (fun p => (p, "ECE")) ++
        (List.range 21).map (fun p => (p, "Mathematics")) ++
        (List.range 6).map (fun p => (p, "Math")) ∧
    fetchFollowedByPause = true := by
  refine ⟨by decide, by decide, by decide⟩

end ExamSaver

namespace ExamSaver

/-- The key list of each record object pushed by parseExams, in
insertion order of the object literal at lines 19 to 23 of
src/examSaver/src/index.ts. -/
def recordFields : List String := ["title", "url", "category"]

/-- Models the external SheetJS call xlsx.utils.json_to_sheet(allExams)
at line 93 of src/examSaver/src/index.ts, which is library code not
contained in this repository: the header row consists of the keys of
the row objects, collected in first-seen order while scanning the
rows, and each record contributes one data row below it. The call
passes no explicit header option, and TypeScript field types are
erased at runtime, so when the record list is empty no key is ever
seen and the produced worksheet has no cells at all. -/
def json_to_sheet (records : List Exam) : List (List String) :=
  let header := records.foldl
    (fun hdr _ =>
      recordFields.foldl (fun h k => if k ∈ h then h else h ++ [k]) hdr)
    []
  match header with
  | [] => []
  | hdr => hdr :: records.map (fun e => [e.title, e.url, e.category])

/-- The workbook written by processPages, lines 93 to 97 of
src/examSaver/src/index.ts: a fresh workbook with the single sheet
named Exams. -/
def workbookOf (records : List Exam) : List (String × List (List String)) :=
  [("Exams", json_to_sheet records)]

/-- C5 counterexample: on the empty record sequence the produced
workbook has its single sheet completely empty, so the sheet is not
the one-row sheet holding the record field names that the claim
demands. -/
theorem exporter_empty_counterexample :
    workbookOf [] = [("Exams", [])] ∧
    json_to_sheet ([] : List Exam) ≠ [recordFields] := by
  refine ⟨rfl, by decide⟩

/-- C5 amended: given the empty record sequence the exporter still
produces a workbook with exactly one sheet, named Exams, but that
sheet contains no rows at all, neither a header row nor data rows,
because the header keys are collected from the records themselves. -/
theorem exporter_empty_amended :
    (workbookOf []).length = 1 ∧ workbookOf [] = [("Exams", [])] := by
  exact ⟨rfl, rfl⟩

end ExamSaver

namespace ExamSaver

/-- The fetch loop body of processPages with failure made explicit:
the oracle models the network, returning either the parsed listing
blocks of the page body or the rejection value that axios.get throws
on a transport failure or a non-success HTTP status. No statement of
fetchPage, parseExams or processPages is wrapped in try/catch, so a
rejection aborts the remaining iterations and propagates out, exactly
as an awaited rejected promise does. -/
def runPlan (oracle : Nat → String → Except String (List Block)) :
    List (Nat × String) → List Exam → Except String (List Exam)
  | [], acc => .ok acc
  | pc :: rest, acc =>
      match oracle pc.1 pc.2 with
      | .error e => .error e
      | .ok html => runPlan oracle rest (acc ++ parseExams html pc.2)

/-- processPages, lines 60 to 99 of src/examSaver/src/index.ts, with
the network modelled by an oracle: run the full page schedule,
accumulating all parsed records, propagating any rejection. -/
def processPagesE (oracle : Nat → String → Except String (List Block)) :
    Except String (List Exam) :=
  runPlan oracle pagePlan []

/-- The observable outcome of one process run. -/
structure RunOutcome where
  exitCode : Nat
  loggedError : Option String
  wroteFile : Bool
deriving DecidableEq, Repr

/-- Line 101 of src/examSaver/src/index.ts:
processPages().catch(console.error). On success the workbook file has
been written and the process exits normally. On failure the single
top-level catch logs the rejection value and no file was written; the
rejection is thereby handled, so the Node process still terminates
normally, with exit code 0. -/
def mainRun (oracle : Nat → String → Except String (List Block)) :
    RunOutcome :=
  match processPagesE oracle with
  | .ok _ => { exitCode := 0, loggedError := none, wroteFile := true }
  | .error e => { exitCode := 0, loggedError := some e, wroteFile := false }

/-- C6 counterexample: with the network failing on the very first
request, the run logs the error and writes no file, but the process
outcome is exit code 0, not the non-zero outcome the claim asserts,
because the top-level catch handles the rejection. -/
theorem errorPath_counterexample :
    mainRun (fun _ _ => .error "ECONNREFUSED") =
      { exitCode := 0, loggedError := some "ECONNREFUSED",
        wroteFile := false } ∧
    ¬(mainRun (fun _ _ => .error "ECONNREFUSED")).exitCode ≠ 0 := by
  refine ⟨by decide, by decide⟩

/-- C6 amended: failures are caught nowhere inside the pipeline, so a
rejection of the first fetch propagates through processPages intact to
the single top-level catch, which logs it; no output file is written
for that run, and the process then terminates normally with exit code
0 because the catch handles the rejection. -/
theorem errorPath_amended
    (oracle : Nat → String → Except String (List Block)) (e : String) :
    (oracle 0 "ECE" = .error e → processPagesE oracle = .error e) ∧
    (processPagesE oracle = .error e →
      mainRun oracle =
        { exitCode := 0, loggedError := some e, wroteFile := false }) := by
  constructor
  · intro h
    unfold processPagesE
    rw [show pagePlan = (0, "ECE") :: pagePlan.tail from rfl]
    rw [runPlan, h]
  · intro h
    unfold mainRun
    rw [h]

theorem errorPath_amended_witness :
    processPagesE (fun _ _ => .error "ECONNREFUSED") =
      .error "ECONNREFUSED" ∧
    mainRun (fun _ _ => .error "ECONNREFUSED") =
      { exitCode := 0, loggedError := some "ECONNREFUSED",
        wroteFile := false } := by
  have h1 := (errorPath_amended (fun _ _ => .error "ECONNREFUSED")
    "ECONNREFUSED").1 rfl
  exact ⟨h1, (errorPath_amended (fun _ _ => .error "ECONNREFUSED")
    "ECONNREFUSED").2 h1⟩

end ExamSaver

namespace Commits

/-- Lexicographic comparison of character lists by code point. This is
the order model used for the two sort comparators of the viewer, both
written with localeCompare in the source; the locale-sensitive parts
of localeCompare are abstracted to plain code point order. Written as
structural recursion so concrete comparisons evaluate in the kernel. -/
def lexLe : List Char → List Char → Bool
  | [], _ => true
  | _ :: _, [] => false
  | a :: as, b :: bs =>
      if a.toNat < b.toNat then true
      else if b.toNat < a.toNat then false
      else lexLe as bs

theorem lexLe_total (as : List Char) :
    ∀ bs, lexLe as bs = true ∨ lexLe bs as = true := by
  induction as with
  | nil => intro bs; left; rfl
  | cons a as ih =>
      intro bs
      cases bs with
      | nil => right; rfl
      | cons b bs =>
          by_cases hab : a.toNat < b.toNat
          · left; simp [lexLe, hab]
          · by_cases hba : b.toNat < a.toNat
            · right; simp [lexLe, hba]
            · rcases ih bs with h | h
              · left; simp [lexLe, hab, hba, h]
              · right; simp [lexLe, hab, hba, h]

theorem lexLe_trans (as : List Char) :
    ∀ bs cs, lexLe as bs = true → lexLe bs cs = true →
      lexLe as cs = true := by
  induction as with
  | nil => intro bs cs _ _; rfl
  | cons a as ih =>
      intro bs cs h1 h2
      cases bs with
      | nil => simp [lexLe] at h1
      | cons b bs =>
          cases cs with
          | nil => simp [lexLe] at h2
          | cons c cs =>
              unfold lexLe at h1 h2 ⊢
              by_cases hab : a.toNat < b.toNat <;>
                by_cases hba : b.toNat < a.toNat <;>
                by_cases hbc : b.toNat < c.toNat <;>
                by_cases hcb : c.toNat < b.toNat <;>
                by_cases hac : a.toNat < c.toNat <;>
                by_cases hca : c.toNat < a.toNat <;>
                simp_all <;>
                first
                  | omega
                  | exact ih bs cs h1 h2
                  | exact Or.inr (ih bs cs h1 h2)

/-- Model of the JavaScript String.prototype.toLowerCase method, per
character like the original; locale-specific mappings are abstracted
to the Unicode simple lower-case map of Char.toLower. -/
def jsToLower (s : String) : String := ⟨s.data.map Char.toLower⟩

def isPrefixL : List Char → List Char → Bool
  | [], _ => true
  | _ :: _, [] => false
  | a :: as, b :: bs => a == b && isPrefixL as bs

def listIncludes : List Char → List Char → Bool
  | [], needle => isPrefixL needle []
  | c :: t, needle => isPrefixL needle (c :: t) || listIncludes t needle

/-- Model of the JavaScript String.prototype.includes method:
substring containment. -/
def strIncludes (s sub : String) : Bool := listIncludes s.data sub.data

/-- Splitting on the regular expression matching an optional carriage
return followed by a newline, as raw.split does at line 61 of
src/github-org-commits/viewer/src/lib/commits.ts. -/
def splitCRLF : List Char → List String
  | [] => [""]
  | '\r' :: '\n' :: cs => "" :: splitCRLF cs
  | '\n' :: cs => "" :: splitCRLF cs
  | c :: cs =>
      match splitCRLF cs with
      | [] => [⟨[c]⟩]
      | line :: rest => ⟨c :: line.data⟩ :: rest

def splitLines (s : String) : List String := splitCRLF s.data

/-- A JSON value as returned by a successful JSON.parse call. Numbers
are modelled as integers; floating point formatting is out of scope. -/
inductive Json where
  | null
  | bool (b : Bool)
  | num (n : Int)
  | str (s : String)
  | arr (elems : List Json)
  | obj (fields : List (String × Json))

mutual

/-- The JavaScript String(v) coercion applied to a JSON value: strings
pass through, booleans and numbers print, arrays join their elements
with commas (null elements joining as the empty string) and plain
objects print as the fixed object placeholder. -/
def jsStringOf : Json → String
  | .null => ""
  | .bool true => "true"
  | .bool false => "false"
  | .num n => toString n
  | .str s => s
  | .arr elems => String.intercalate "," (jsStringList elems)
  | .obj _ => "[object Object]"

def jsStringList : List Json → List String
  | [] => []
  | j :: js => jsStringOf j :: jsStringList js

end

/-- The helper at lines 27 to 30 of
src/github-org-commits/viewer/src/lib/commits.ts, named _asString in
the source: null and undefined (a missing field) coerce to the empty
string, anything else through String(v). -/
def asString (v : Option Json) : String :=
  match v with
  | none => ""
  | some .null => ""
  | some j => jsStringOf j

/-- The helper at lines 22 to 25 of the same file, named
_asStringOrNull in the source. -/
def asStringOrNull (v : Option Json) : Option String :=
  match v with
  | none => none
  | some .null => none
  | some j => some (jsStringOf j)

/-- Property lookup on a parsed JSON value: objects look keys up with
the last duplicate key winning, as JSON.parse builds them; any other
value, including an array, yields undefined for a string key. -/
def lookupLast : List (String × Json) → String → Option Json
  | [], _ => none
  | (k', v) :: rest, k =>
      match lookupLast rest k with
      | some r => some r
      | none => if k' = k then some v else none

def getField : Json → String → Option Json
  | .obj fields, k => lookupLast fields k
  | _, _ => none

/-- One commit record of the viewer, lines 4 to 20 of
src/github-org-commits/viewer/src/lib/commits.ts. -/
structure CommitRow where
  org : String
  repo : String
  repo_full_name : String
  sha : String
  html_url : String
  api_url : String
  author_login : Option String
  committer_login : Option String
  commit_author_name : Option String
  commit_author_email : Option String
  commit_author_date : Option String
  commit_committer_name : Option String
  commit_committer_email : Option String
  commit_committer_date : Option String
  message : String
deriving DecidableEq, Repr

/-- The function at lines 32 to 54 of the same file, named
_parseCommitRow in the source: reject any value that is not
object-like (in JavaScript both plain objects and arrays have typeof
object, while null is rejected by the falsiness test), then reject it
when the coerced sha is empty, otherwise coerce every field. -/
def parseCommitRow (j : Json) : Option CommitRow :=
  match j with
  | .arr _ | .obj _ =>
      let sha := asString (getField j "sha")
      if sha = "" then none
      else
        some {
          org := asString (getField j "org")
          repo := asString (getField j "repo")
          repo_full_name := asString (getField j "repo_full_name")
          sha := sha
          html_url := asString (getField j "html_url")
          api_url := asString (getField j "api_url")
          author_login := asStringOrNull (getField j "author_login")
          committer_login := asStringOrNull (getField j "committer_login")
          commit_author_name := asStringOrNull (getField j "commit_author_name")
          commit_author_email := asStringOrNull (getField j "commit_author_email")
          commit_author_date := asStringOrNull (getField j "commit_author_date")
          commit_committer_name := asStringOrNull (getField j "commit_committer_name")
          commit_committer_email := asStringOrNull (getField j "commit_committer_email")
          commit_committer_date := asStringOrNull (getField j "commit_committer_date")
          message := asString (getField j "message")
        }
  | _ => none

/-- The body of the line loop of loadCommitsFromRepoJsonl, lines 61 to
71: trim the line, skip it when blank, parse it as JSON with the
try/catch skipping lines whose parse throws (the parse outcome is
modelled by the parseJson argument returning none on failure), then
keep the row when the record parser accepts it. -/
def parseLine (parseJson : String → Option Json) (line : String) :
    Option CommitRow :=
  let s := jsTrim line
  if s = "" then none
  else
    match parseJson s with
    | none => none
    | some j => parseCommitRow j

/-- The sort key of the comparator at lines 73 to 75: the commit
author date with null replaced by the empty string. -/
def dateKey (r : CommitRow) : String := r.commit_author_date.getD ""

/-- The comparator at lines 73 to 75 of commits.ts, as the relation
a-precedes-b: descending by date key. -/
def rowOrder (a b : CommitRow) : Prop :=
  lexLe (dateKey b).data (dateKey a).data = true

instance : DecidableRel rowOrder := fun a b => by
  unfold rowOrder; infer_instance

instance : IsTotal CommitRow rowOrder :=
  ⟨fun a b => by
    unfold rowOrder
    rcases lexLe_total (dateKey a).data (dateKey b).data with h | h
    · exact Or.inr h
    · exact Or.inl h⟩

instance : IsTrans CommitRow rowOrder :=
  ⟨fun a b c h1 h2 =>
    lexLe_trans (dateKey c).data (dateKey b).data (dateKey a).data h2 h1⟩

/-- loadCommitsFromRepoJsonl, lines 56 to 77 of
src/github-org-commits/viewer/src/lib/commits.ts, with the file read
modelled by the raw content string and JSON.parse by the parseJson
argument: split into lines, keep the parseable rows, then sort by
descending commit author date. The JavaScript engine sort is stable,
as is insertion sort, and the comparator is a consistent total
preorder, so the two agree on the result. -/
def loadCommitsFromRepoJsonl (parseJson : String → Option Json)
    (raw : String) : List CommitRow :=
  List.insertionSort rowOrder
    ((splitLines raw).filterMap (parseLine parseJson))

theorem parseCommitRow_sha {j : Json} {r : CommitRow}
    (h : parseCommitRow j = some r) : r.sha ≠ "" := by
  cases j with
  | arr elems =>
      unfold parseCommitRow at h
      dsimp only at h
      by_cases hsha : asString (getField (Json.arr elems) "sha") = ""
      · rw [if_pos hsha] at h; exact absurd h (by simp)
      · rw [if_neg hsha] at h
        have he := Option.some.inj h
        rw [← he]
        exact hsha
  | obj fields =>
      unfold parseCommitRow at h
      dsimp only at h
      by_cases hsha : asString (getField (Json.obj fields) "sha") = ""
      · rw [if_pos hsha] at h; exact absurd h (by simp)
      · rw [if_neg hsha] at h
        have he := Option.some.inj h
        rw [← he]
        exact hsha
  | null => exact absurd h (by simp [parseCommitRow])
  | bool b => exact absurd h (by simp [parseCommitRow])
  | num n => exact absurd h (by simp [parseCommitRow])
  | str s => exact absurd h (by simp [parseCommitRow])

/-- C9: for every file content and every JSON.parse outcome, the
loader is total and every returned row has a non-empty sha, while
blank, unparseable, non-object and sha-less lines contribute nothing,
so the row count never exceeds the line count. -/
theorem loadCommits_malformed_safe (parseJson : String → Option Json)
    (raw : String) :
    (∀ r ∈ loadCommitsFromRepoJsonl parseJson raw, r.sha ≠ "") ∧
    (loadCommitsFromRepoJsonl parseJson raw).length ≤
      (splitLines raw).length := by
  constructor
  · intro r hr
    unfold loadCommitsFromRepoJsonl at hr
    have hr' := (List.perm_insertionSort rowOrder _).mem_iff.mp hr
    rcases List.mem_filterMap.mp hr' with ⟨line, _, hline⟩
    unfold parseLine at hline
    by_cases hb : jsTrim line = ""
    · simp [hb] at hline
    · rw [if_neg hb] at hline
      cases hpj : parseJson (jsTrim line) with
      | none => rw [hpj] at hline; exact absurd hline (by simp)
      | some j =>
          rw [hpj] at hline
          exact parseCommitRow_sha hline
  · unfold loadCommitsFromRepoJsonl
    rw [(List.perm_insertionSort rowOrder _).length_eq]
    exact List.length_filterMap_le _ _

/-- A concrete JSON.parse outcome used to instantiate the theorems on
the loader: every line parses to one object with a sha, a repository
name and an author date. -/
def pjW : String → Option Json := fun _ =>
  some (.obj
    [("sha", .str "abc"),
     ("repo_full_name", .str "r1"),
     ("commit_author_date", .str "2024-01-01")])

/-- The row the loader produces from pjW. -/
def rowW : CommitRow :=
  { org := "", repo := "", repo_full_name := "r1", sha := "abc",
    html_url := "", api_url := "", author_login := none,
    committer_login := none, commit_author_name := none,
    commit_author_email := none,
    commit_author_date := some "2024-01-01",
    commit_committer_name := none, commit_committer_email := none,
    commit_committer_date := none, message := "" }

theorem loadCommits_malformed_safe_witness :
    rowW.sha ≠ "" ∧
    (loadCommitsFromRepoJsonl pjW "x").length ≤
      (splitLines "x").length := by
  have h := loadCommits_malformed_safe pjW "x"
  exact ⟨h.1 rowW (by decide), h.2⟩

/-- The grouping key of the viewer, line 55 of the CommitsClient
component: the full repository name, with the empty name bucketed
under the fixed placeholder. -/
def groupKey (c : CommitRow) : String :=
  if c.repo_full_name = "" then "(unknown repo)" else c.repo_full_name

/-- The filter of the CommitsClient component, lines 39 to 50: drop
rows of other repositories when one repository is selected, keep
everything when the trimmed lower-cased query is empty, otherwise
require the query to occur in the lower-cased sha, repository name or
message. -/
def filterPred (q repoSel : String) (c : CommitRow) : Bool :=
  let query := jsToLower (jsTrim q)
  if repoSel ≠ "all" ∧ c.repo_full_name ≠ repoSel then false
  else if query = "" then true
  else
    strIncludes (jsToLower c.sha) query ||
      strIncludes (jsToLower c.repo_full_name) query ||
      strIncludes (jsToLower c.message) query

/-- One step of the grouping loop at lines 52 to 59 of the
CommitsClient component: append the row to its group when the key is
already present, otherwise add a new group at the end, preserving
first-seen key order like the JavaScript Map. -/
def addToGroup :
    List (String × List CommitRow) → String → CommitRow →
      List (String × List CommitRow)
  | [], k, c => [(k, [c])]
  | (k', l) :: rest, k, c =>
      if k' = k then (k', l ++ [c]) :: rest
      else (k', l) :: addToGroup rest k c

def buildGroups (rows : List CommitRow) : List (String × List CommitRow) :=
  rows.foldl (fun m c => addToGroup m (groupKey c) c) []

/-- The comparator of the group sort at line 60 of the CommitsClient
component: ascending by group name. -/
def entryOrder (a b : String × List CommitRow) : Prop :=
  lexLe a.1.data b.1.data = true

instance : DecidableRel entryOrder := fun a b => by
  unfold entryOrder; infer_instance

instance : IsTotal (String × List CommitRow) entryOrder :=
  ⟨fun a b => by
    unfold entryOrder
    exact lexLe_total a.1.data b.1.data⟩

instance : IsTrans (String × List CommitRow) entryOrder :=
  ⟨fun a b c h1 h2 => lexLe_trans a.1.data b.1.data c.1.data h1 h2⟩

/-- The rendered grouping of the viewer: filter, group by repository
name in first-seen order, then sort the group entries by name. -/
def groupedCommits (rows : List CommitRow) (q repoSel : String) :
    List (String × List CommitRow) :=
  List.insertionSort entryOrder
    (buildGroups (rows.filter (filterPred q repoSel)))

theorem keys_addToGroup (m : List (String × List CommitRow))
    (k0 : String) (c : CommitRow) :
    (addToGroup m k0 c).map Prod.fst =
      if k0 ∈ m.map Prod.fst then m.map Prod.fst
      else m.map Prod.fst ++ [k0] := by
  induction m with
  | nil => simp [addToGroup]
  | cons p rest ih =>
      obtain ⟨k', l⟩ := p
      by_cases hk : k' = k0
      · subst hk
        simp [addToGroup]
      · rw [show addToGroup ((k', l) :: rest) k0 c =
            (k', l) :: addToGroup rest k0 c from by
          rw [addToGroup, if_neg hk]]
        by_cases hm : k0 ∈ rest.map Prod.fst
        · simp [hm, ih, Ne.symm hk]
        · simp [hm, ih, Ne.symm hk]

theorem addToGroup_content (rows : List CommitRow) (c : CommitRow) :
    ∀ m : List (String × List CommitRow),
      (∀ k l, (k, l) ∈ m → l = rows.filter (fun x => groupKey x = k)) →
      (m.map Prod.fst).Nodup →
      (groupKey c ∉ m.map Prod.fst →
        rows.filter (fun x => groupKey x = groupKey c) = []) →
      ∀ k l, (k, l) ∈ addToGroup m (groupKey c) c →
        l = (rows ++ [c]).filter (fun x => groupKey x = k) := by
  intro m
  induction m with
  | nil =>
      intro _ _ hmiss k l hmem
      simp [addToGroup] at hmem
      obtain ⟨hk, hl⟩ := hmem
      subst hk; subst hl
      rw [List.filter_append, hmiss (by simp)]
      simp
  | cons p rest ih =>
      obtain ⟨k', l'⟩ := p
      intro hcontent hnodup hmiss k l hmem
      by_cases hk : k' = groupKey c
      · rw [show addToGroup ((k', l') :: rest) (groupKey c) c =
            (k', l' ++ [c]) :: rest from by
          rw [addToGroup, if_pos hk]] at hmem
        rcases List.mem_cons.mp hmem with heq | hrest
        · rw [Prod.mk.injEq] at heq
          obtain ⟨hk2, hl2⟩ := heq
          have hl' := hcontent k' l' (List.mem_cons_self _ _)
          rw [hl2, hl', List.filter_append, hk2]
          simp [hk]
        · have hlk := hcontent k l (List.mem_cons_of_mem _ hrest)
          have hkne : groupKey c ≠ k := by
            intro heq2
            have hins : k' ∈ rest.map Prod.fst := by
              rw [hk, heq2]
              exact List.mem_map_of_mem Prod.fst hrest
            exact (List.nodup_cons.mp hnodup).1 hins
          rw [List.filter_append, hlk]
          simp [List.filter, hkne]
      · rw [show addToGroup ((k', l') :: rest) (groupKey c) c =
            (k', l') :: addToGroup rest (groupKey c) c from by
          rw [addToGroup, if_neg hk]] at hmem
        rcases List.mem_cons.mp hmem with heq | hrest
        · rw [Prod.mk.injEq] at heq
          obtain ⟨hk2, hl2⟩ := heq
          have hl' := hcontent k' l' (List.mem_cons_self _ _)
          rw [hl2, hl', List.filter_append, hk2]
          have hc : ¬groupKey c = k' := fun h => hk h.symm
          simp [hc]
        · refine ih (fun k2 l2 hm2 =>
            hcontent k2 l2 (List.mem_cons_of_mem _ hm2))
            (List.nodup_cons.mp hnodup).2 ?_ k l hrest
          intro hnot
          apply hmiss
          intro hin
          rcases List.mem_cons.mp hin with heq2 | hin2
          · exact hk heq2.symm
          · exact hnot hin2

theorem buildGroups_spec (rows : List CommitRow) :
    ((buildGroups rows).map Prod.fst).Nodup ∧
    (∀ k l, (k, l) ∈ buildGroups rows →
      l = rows.filter (fun x => groupKey x = k)) ∧
    (∀ c ∈ rows, groupKey c ∈ (buildGroups rows).map Prod.fst) := by
  induction rows using List.reverseRecOn with
  | nil => simp [buildGroups]
  | append_singleton rows c ih =>
      obtain ⟨hnodup, hcontent, hcomplete⟩ := ih
      have hsnoc : buildGroups (rows ++ [c]) =
          addToGroup (buildGroups rows) (groupKey c) c := by
        simp [buildGroups, List.foldl_append]
      have hmiss : groupKey c ∉ (buildGroups rows).map Prod.fst →
          rows.filter (fun x => groupKey x = groupKey c) = [] := by
        intro hnot
        rw [List.filter_eq_nil_iff]
        intro x hx hkey
        rw [decide_eq_true_eq] at hkey
        exact hnot (hkey ▸ hcomplete x hx)
      refine ⟨?_, ?_, ?_⟩
      · rw [hsnoc, keys_addToGroup]
        by_cases hm : groupKey c ∈ (buildGroups rows).map Prod.fst
        · simp [hm, hnodup]
        · simp [hm, List.nodup_append, hnodup]
      · intro k l hm
        rw [hsnoc] at hm
        exact addToGroup_content rows c (buildGroups rows)
          hcontent hnodup hmiss k l hm
      · intro x hx
        rw [hsnoc, keys_addToGroup]
        rcases List.mem_append.mp hx with hx | hx
        · have hxk := hcomplete x hx
          by_cases hm : groupKey c ∈ (buildGroups rows).map Prod.fst <;>
            simp [hm, hxk]
        · have hxc : x = c := by simpa using hx
          subst hxc
          by_cases hm : groupKey x ∈ (buildGroups rows).map Prod.fst <;>
            simp [hm]

/-- C8: for every loaded commit file and every search and repository
filter state, the rendered grouping partitions the filtered rows by
repository name (each group holds exactly the filtered rows with its
key, and every filtered row has its key among the groups), the groups
are sorted ascending by group name, and within each group the rows
are sorted by descending commit author date. -/
theorem viewer_grouping (parseJson : String → Option Json)
    (raw q repoSel : String) :
    (∀ k l,
      (k, l) ∈ groupedCommits (loadCommitsFromRepoJsonl parseJson raw)
          q repoSel →
        l = ((loadCommitsFromRepoJsonl parseJson raw).filter
              (filterPred q repoSel)).filter
            (fun x => groupKey x = k)) ∧
    (∀ c ∈ (loadCommitsFromRepoJsonl parseJson raw).filter
        (filterPred q repoSel),
      groupKey c ∈
        (groupedCommits (loadCommitsFromRepoJsonl parseJson raw)
            q repoSel).map Prod.fst) ∧
    ((groupedCommits (loadCommitsFromRepoJsonl parseJson raw)
        q repoSel).map Prod.fst).Pairwise
      (fun a b => lexLe a.data b.data = true) ∧
    (∀ k l,
      (k, l) ∈ groupedCommits (loadCommitsFromRepoJsonl parseJson raw)
          q repoSel →
        l.Pairwise rowOrder) := by
  obtain ⟨hnodup, hcontent, hcomplete⟩ :=
    buildGroups_spec ((loadCommitsFromRepoJsonl parseJson raw).filter
      (filterPred q repoSel))
  have hperm := List.perm_insertionSort entryOrder
    (buildGroups ((loadCommitsFromRepoJsonl parseJson raw).filter
      (filterPred q repoSel)))
  have hrows : ((loadCommitsFromRepoJsonl parseJson raw) :
      List CommitRow).Pairwise rowOrder := by
    unfold loadCommitsFromRepoJsonl
    exact List.sorted_insertionSort rowOrder _
  refine ⟨?_, ?_, ?_, ?_⟩
  · intro k l hm
    exact hcontent k l (hperm.mem_iff.mp hm)
  · intro c hc
    have hkey := hcomplete c hc
    rcases List.mem_map.mp hkey with ⟨p, hp, hpk⟩
    exact hpk ▸ List.mem_map_of_mem Prod.fst (hperm.mem_iff.mpr hp)
  · have hsorted := List.sorted_insertionSort entryOrder
      (buildGroups ((loadCommitsFromRepoJsonl parseJson raw).filter
        (filterPred q repoSel)))
    exact List.pairwise_map.mpr hsorted
  · intro k l hm
    have hl := hcontent k l (hperm.mem_iff.mp hm)
    rw [hl]
    exact List.Pairwise.sublist
      ((List.filter_sublist _).trans (List.filter_sublist _)) hrows

/-- Concrete instantiation of the grouping theorem: one loaded row,
empty query, no repository selected; its group is exactly the
filtered singleton and its key appears among the rendered groups. -/
theorem viewer_grouping_witness :
    [rowW] = ((loadCommitsFromRepoJsonl pjW "x").filter
        (filterPred "" "all")).filter
      (fun x => groupKey x = "r1") ∧
    groupKey rowW ∈
      (groupedCommits (loadCommitsFromRepoJsonl pjW "x")
          "" "all").map Prod.fst := by
  have h := viewer_grouping pjW "x" "" "all"
  exact ⟨h.1 "r1" [rowW] (by decide), h.2.1 rowW (by decide)⟩

end Commits
